import Mathlib

/-!
# Verification of the pdf2email extraction core (`src/core/extractor.py`)

Shallow embedding of the extractor module:

* Strings are `List Char`.  Python's `str.lower()` / `str.strip()` /
  `re`-based tests are modelled character-exactly for the ASCII range
  (the repository's patterns are all ASCII character classes; Python's
  Unicode extensions of `\s`, `\d`, `\w` and `str.lower` are out of the
  modelled range and noted where relevant).
* The float font sizes / coordinates delivered by the PDF engine are
  modelled as exact fractions `Frac` (integer numerator, positive
  denominator, comparison by cross-multiplication) so that every
  comparison the code performs is computable by the kernel.
* The external PDF engines (PyMuPDF alias `fitz`, and `pdfplumber`) are
  modelled at their interface: a `PdfFile` records what each engine
  returns for the given bytes (or that opening raises), and `FitzDoc`
  records metadata, per-page text and the page-1 span structure.
* Exceptions are modelled by `Except` / `Option` values; every
  `try/except` of the source is an explicit branch.
-/

/-! ## Exact fractions

`Frac` models the IEEE floats handed over by the PDF engine as exact
rationals.  The denominator is `denPred + 1`, hence always positive, so
cross-multiplied comparison agrees with the rational order.  No
normalisation is performed, which keeps every operation reducible by the
kernel (`decide`). -/

structure Frac where
  num : Int
  denPred : Nat
deriving DecidableEq, Repr

/-- The (always positive) denominator. -/
def Frac.den (a : Frac) : Int := (a.denPred : Int) + 1

/-- Embed an integer. -/
def Frac.ofInt (n : Int) : Frac := ⟨n, 0⟩

/-- Predecessor of a product of denominators:
`(a.den * b.den) - 1` computed without truncating subtraction. -/
def Frac.denPredMul (a b : Frac) : Nat :=
  a.denPred * b.denPred + a.denPred + b.denPred

/-- Multiplication of exact fractions. -/
def Frac.mul (a b : Frac) : Frac :=
  ⟨a.num * b.num, a.denPredMul b⟩

/-- Addition of exact fractions. -/
def Frac.add (a b : Frac) : Frac :=
  ⟨a.num * b.den + b.num * a.den, a.denPredMul b⟩

/-- Subtraction of exact fractions. -/
def Frac.sub (a b : Frac) : Frac :=
  ⟨a.num * b.den - b.num * a.den, a.denPredMul b⟩

/-- Strict order, by cross-multiplication (denominators are positive). -/
def Frac.lt (a b : Frac) : Prop := a.num * b.den < b.num * a.den

/-- Non-strict order, by cross-multiplication. -/
def Frac.le (a b : Frac) : Prop := a.num * b.den ≤ b.num * a.den

instance : DecidableRel Frac.lt := fun a b => inferInstanceAs (Decidable (_ < _))
instance : DecidableRel Frac.le := fun a b => inferInstanceAs (Decidable (_ ≤ _))

/-- The literal `0.99` of the source (font-size tolerance). -/
def frac99 : Frac := ⟨99, 99⟩

/-- The literal `1.3` of the source (vertical-gap multiplier). -/
def frac13 : Frac := ⟨13, 9⟩

theorem Frac.den_pos (a : Frac) : 0 < a.den := by
  simp only [Frac.den]; omega

theorem Frac.den_mul (a b : Frac) : (a.mul b).den = a.den * b.den := by
  simp only [Frac.mul, Frac.den, Frac.denPredMul]
  push_cast
  ring

theorem Frac.le_total' (a b : Frac) : a.le b ∨ b.le a := by
  simp only [Frac.le]; omega

theorem Frac.le_trans' {a b c : Frac} (h1 : a.le b) (h2 : b.le c) : a.le c := by
  simp only [Frac.le] at *
  have hb := b.den_pos
  have ha := a.den_pos
  have hc := c.den_pos
  nlinarith [mul_le_mul_of_nonneg_right h1 (le_of_lt hc),
    mul_le_mul_of_nonneg_right h2 (le_of_lt ha)]

/-- A size `q` with positive numerator denotes a positive rational
(denominators are positive by construction). -/
def Frac.IsPos (a : Frac) : Prop := 0 < a.num

instance (a : Frac) : Decidable a.IsPos := inferInstanceAs (Decidable (_ < _))

/-- For a positive size, multiplying by the tolerance `0.99` strictly
shrinks it: `q * 0.99 < q`.  This is why the maximal-size candidate
always survives the `size > max_size * 0.99` filter. -/
theorem Frac.mul99_lt {q : Frac} (hq : q.IsPos) : (q.mul frac99).lt q := by
  simp only [Frac.lt, Frac.mul, frac99, Frac.den, Frac.denPredMul, Frac.IsPos] at *
  push_cast
  nlinarith [Int.ofNat_zero_le q.denPred]

/-- `q ≤ q * 0.99` fails for positive `q`. -/
theorem Frac.not_le_mul99 {q : Frac} (hq : q.IsPos) : ¬ q.le (q.mul frac99) := by
  intro h
  have h2 := Frac.mul99_lt hq
  simp only [Frac.le, Frac.lt] at h h2
  omega

/-! ## Python character classes (ASCII fragment)

`isPySpace` models Python's `str.strip()` / regex `\s` white-space test
on the ASCII range (space, tab, newline, carriage return, vertical tab,
form feed); `Char.isDigit` models `\d`, `Char.isAlpha` models `[a-zA-Z]`
and `Char.toLower` models `str.lower()` — all exact on ASCII, which is
the range of every pattern in the source. -/

def isPySpace (c : Char) : Bool :=
  c = ' ' || c = '\t' || c = '\n' || c = '\r' || c = '\x0b' || c = '\x0c'

/-- `\w` of Python's `re` (ASCII fragment): letters, digits, underscore. -/
def isWordChar (c : Char) : Bool := c.isAlphanum || c = '_'

/-- `str.lower()` of one character (ASCII fragment, as `Char.toLower`). -/
def lowerStr (l : List Char) : List Char := l.map Char.toLower

/-! ## String helpers (each models one Python primitive) -/

/-- Drop trailing white-space (the right half of `str.strip()`). -/
def dropTrailWs (l : List Char) : List Char :=
  (l.reverse.dropWhile isPySpace).reverse

/-- Python `str.strip()`: drop leading and trailing white-space. -/
def pyStrip (l : List Char) : List Char :=
  dropTrailWs (l.dropWhile isPySpace)

/-- Recursion core of `collapseWs`.  Structural recursion on a fuel
counter so that the kernel can evaluate it; every step consumes at least
one character, so `fuel = l.length` never runs out
(`collapseWsGo_congr`). -/
def collapseWsGo : Nat → List Char → List Char
  | _, [] => []
  | 0, _ => []
  | fuel + 1, c :: t =>
    if isPySpace c then ' ' :: collapseWsGo fuel (t.dropWhile isPySpace)
    else c :: collapseWsGo fuel t

/-- Python `re.sub(r"\s+", " ", s)`: collapse every maximal white-space
run to a single space. -/
def collapseWs (l : List Char) : List Char := collapseWsGo l.length l

theorem length_dropWhile_le (p : Char → Bool) (t : List Char) :
    (t.dropWhile p).length ≤ t.length := by
  have h := congrArg List.length (List.takeWhile_append_dropWhile p t)
  rw [List.length_append] at h
  omega

theorem collapseWsGo_nil (f : Nat) : collapseWsGo f [] = [] := by
  cases f <;> rfl

/-- The fuel is irrelevant as soon as it covers the input's length: the
fuelled recursion computes the total function. -/
theorem collapseWsGo_congr :
    ∀ (f1 : Nat) (l : List Char) (f2 : Nat), l.length ≤ f1 → l.length ≤ f2 →
      collapseWsGo f1 l = collapseWsGo f2 l := by
  intro f1
  induction f1 with
  | zero =>
    intro l f2 h1 _
    have : l = [] := List.length_eq_zero.mp (Nat.le_zero.mp h1)
    subst this
    rw [collapseWsGo_nil, collapseWsGo_nil]
  | succ g1 ih =>
    intro l f2 h1 h2
    match l, f2 with
    | [], f2 => rw [collapseWsGo_nil, collapseWsGo_nil]
    | c :: t, g2 + 1 =>
      simp only [collapseWsGo]
      have hd := length_dropWhile_le isPySpace t
      simp only [List.length_cons] at h1 h2
      by_cases hc : isPySpace c
      · simp only [if_pos hc]
        rw [ih (t.dropWhile isPySpace) g2 (by omega) (by omega)]
      · simp only [if_neg hc]
        rw [ih t g2 (by omega) (by omega)]

/-- Python `" ".join(parts)`. -/
def joinSpace : List (List Char) → List Char
  | [] => []
  | [x] => x
  | x :: y :: t => x ++ ' ' :: joinSpace (y :: t)

/-- Concatenation `text += page + "\n"` over a page list (fitz loop of
`extract_text_content`). -/
def joinNl : List (List Char) → List Char
  | [] => []
  | p :: t => p ++ '\n' :: joinNl t

/-- Python `needle in hay` (substring containment). -/
def hasSub : List Char → List Char → Bool
  | hay, needle =>
    if needle.isPrefixOf hay then true
    else
      match hay with
      | [] => false
      | _ :: t => hasSub t needle

/-- `re.search("^pat", s, re.IGNORECASE)` for a literal lower-case
pattern `pre`: case-insensitive prefix test. -/
def startsCI (pre t : List Char) : Bool := pre.isPrefixOf (lowerStr t)

/-- `re.search("pat$", s, re.IGNORECASE)` for a literal lower-case
pattern `suf`: case-insensitive suffix test.  (`$` also matches before a
trailing newline in Python; every string this is applied to has been
stripped, so end-of-string is exact.) -/
def endsCI (suf t : List Char) : Bool := suf.isSuffixOf (lowerStr t)

/-! ## The email regular expression

`EMAIL_RE = re.compile(r"[a-zA-Z0-9._%+-]+@[a-zA-Z0-9.-]+\.[a-zA-Z]{2,}")`

`emailFindAll` reproduces `EMAIL_RE.findall(text)`: scan left to right,
at each position attempt a greedy backtracking match, on success emit
the match and resume right after it.  For this pattern backtracking is
only ever needed in the domain part: `[a-zA-Z0-9._%+-]+` cannot trade
characters with `@` (`@` is outside the class), while the greedy
`[a-zA-Z0-9.-]+` backtracks to the *last* dot of the domain run that is
followed by at least two letters; `[a-zA-Z]{2,}` then extends greedily. -/

/-- The local-part class `[a-zA-Z0-9._%+-]`. -/
def isLocalChar (c : Char) : Bool :=
  c.isAlpha || c.isDigit || c = '.' || c = '_' || c = '%' || c = '+' || c = '-'

/-- The domain class `[a-zA-Z0-9.-]`. -/
def isDomainChar (c : Char) : Bool :=
  c.isAlpha || c.isDigit || c = '.' || c = '-'

/-- Inside the maximal domain-class run `l`, is position `k` a dot that a
backtracked `[a-zA-Z0-9.-]+` may stop before, with `[a-zA-Z]{2,}`
matching after it?  Needs at least one domain character before the dot
(`1 ≤ k`) and two letters after it. -/
def validDotAt (l : List Char) (k : Nat) : Bool :=
  decide (1 ≤ k) && decide (k + 2 < l.length) &&
    decide (l.getD k ' ' = '.') && (l.getD (k + 1) ' ').isAlpha &&
    (l.getD (k + 2) ' ').isAlpha

/-- Greedy-backtracking match of `[a-zA-Z0-9.-]+\.[a-zA-Z]{2,}` against
the maximal domain run `l`: pick the *largest* split (Python's greedy
`+` backtracks from the right), i.e. the last valid dot; the matched
part is everything up to the dot plus the maximal letter run after it. -/
def tryDomain (l : List Char) : Option (List Char) :=
  match (List.range l.length).reverse.find? (validDotAt l) with
  | none => none
  | some k => some (l.take (k + 1) ++ (l.drop (k + 1)).takeWhile Char.isAlpha)

/-- One match attempt of `EMAIL_RE` anchored at the head of `l`; returns
the matched substring and the remainder of `l` after the match. -/
def emailMatchAt (l : List Char) : Option (List Char × List Char) :=
  if l.takeWhile isLocalChar = [] then none
  else
    match l.dropWhile isLocalChar with
    | '@' :: rest2 =>
      match tryDomain (rest2.takeWhile isDomainChar) with
      | none => none
      | some dm =>
        some (l.takeWhile isLocalChar ++ '@' :: dm,
          (rest2.takeWhile isDomainChar).drop dm.length ++ rest2.dropWhile isDomainChar)
    | _ => none

/-- The matched suffix handed back by `emailMatchAt` is strictly shorter
than the input (every match consumes at least the `@`). -/
theorem emailMatchAt_rest_lt (l m r : List Char)
    (h : emailMatchAt l = some (m, r)) : r.length < l.length := by
  unfold emailMatchAt at h
  split at h
  · exact absurd h (by simp)
  · split at h
    · rename_i rest2 hdrop
      split at h
      · exact absurd h (by simp)
      · rename_i dm hdm
        simp only [Option.some.injEq, Prod.mk.injEq] at h
        have hlen := congrArg List.length
          (List.takeWhile_append_dropWhile isLocalChar l)
        rw [List.length_append] at hlen
        have hlen2 : (l.dropWhile isLocalChar).length = rest2.length + 1 := by
          rw [hdrop]; simp
        have hlen3 := congrArg List.length
          (List.takeWhile_append_dropWhile isDomainChar rest2)
        rw [List.length_append] at hlen3
        have hr : r.length ≤
            (rest2.takeWhile isDomainChar).length +
              (rest2.dropWhile isDomainChar).length := by
          rw [← h.2]
          simp only [List.length_append, List.length_drop]
          omega
        omega
    · exact absurd h (by simp)

/-- Recursion core of the scan.  Structural recursion on a fuel counter
so the kernel can evaluate it; every step advances by at least one
character (`emailMatchAt_rest_lt`), so `fuel = l.length` never runs out
(`emailFindAllGo_congr`). -/
def emailFindAllGo : Nat → List Char → List (List Char)
  | _, [] => []
  | 0, _ => []
  | fuel + 1, c :: rest =>
    match emailMatchAt (c :: rest) with
    | some (m, after) => m :: emailFindAllGo fuel after
    | none => emailFindAllGo fuel rest

/-- `EMAIL_RE.findall(text)`: all non-overlapping matches, left to
right, each found by the greedy backtracking attempt `emailMatchAt`. -/
def emailFindAll (l : List Char) : List (List Char) := emailFindAllGo l.length l

theorem emailFindAllGo_nil (f : Nat) : emailFindAllGo f [] = [] := by
  cases f <;> rfl

/-- The fuel is irrelevant as soon as it covers the input's length: the
fuelled scan computes the total left-to-right scan. -/
theorem emailFindAllGo_congr :
    ∀ (f1 : Nat) (l : List Char) (f2 : Nat), l.length ≤ f1 → l.length ≤ f2 →
      emailFindAllGo f1 l = emailFindAllGo f2 l := by
  intro f1
  induction f1 with
  | zero =>
    intro l f2 h1 _
    have : l = [] := List.length_eq_zero.mp (Nat.le_zero.mp h1)
    subst this
    rw [emailFindAllGo_nil, emailFindAllGo_nil]
  | succ g1 ih =>
    intro l f2 h1 h2
    match l, f2 with
    | [], f2 => rw [emailFindAllGo_nil, emailFindAllGo_nil]
    | c :: rest, g2 + 1 =>
      simp only [emailFindAllGo]
      simp only [List.length_cons] at h1 h2
      cases hm : emailMatchAt (c :: rest) with
      | some p =>
        obtain ⟨m, after⟩ := p
        have hlt := emailMatchAt_rest_lt _ _ _ hm
        simp only [List.length_cons] at hlt
        dsimp only
        rw [ih after g2 (by omega) (by omega)]
      | none =>
        dsimp only
        rw [ih rest g2 (by omega) (by omega)]

/-! ## `extract_emails` (source lines 178–188)

```python
def extract_emails(text):
    emails = EMAIL_RE.findall(text)
    seen = set()
    unique_emails = []
    for e in emails:
        e_lower = e.lower()
        if e_lower not in seen:
            seen.add(e_lower)
            unique_emails.append(e_lower)
    return unique_emails
```
The loop is embedded structurally: `seen` is the set of already-emitted
lower-cased matches, the result is produced in append order. -/

/-- The `for e in emails` loop of `extract_emails`. -/
def emailLoop : List (List Char) → List (List Char) → List (List Char)
  | [], _ => []
  | e :: rest, seen =>
    if lowerStr e ∈ seen then emailLoop rest seen
    else lowerStr e :: emailLoop rest (lowerStr e :: seen)

/-- `extract_emails(text)`: unique lower-cased email matches in
first-occurrence order. -/
def extract_emails (text : List Char) : List (List Char) :=
  emailLoop (emailFindAll text) []

/-- Specification-side description of first-occurrence deduplication:
keep each element's first occurrence, drop every later duplicate. -/
def dedupKeepFirst : List (List Char) → List (List Char)
  | [] => []
  | a :: l => a :: dedupKeepFirst (l.filter (fun b => b ≠ a))
termination_by l => l.length
decreasing_by
  · simp only [List.length_cons, Nat.lt_succ_iff]
    exact List.length_filter_le _ _

/-! ## Pattern predicates of `get_strict_title` -/

/-- `re.match(r"^[\d\s\.\-_]+$", s)`: the whole string is digits,
white-space, dots, dashes or underscores (and is non-empty). -/
def matchNumPunct (t : List Char) : Bool :=
  !t.isEmpty && t.all (fun c => c.isDigit || isPySpace c || c = '.' || c = '-' || c = '_')

/-- `re.match(r"^[\d\s]+$", s)`: the whole string is digits or
white-space (and is non-empty). -/
def matchNumSpace (t : List Char) : Bool :=
  !t.isEmpty && t.all (fun c => c.isDigit || isPySpace c)

/-- `re.search(r"^document\d*$", s, re.IGNORECASE)`: `document` followed
only by digits. -/
def matchDocumentNum (t : List Char) : Bool :=
  startsCI (("document").toList) t && (t.drop 8).all Char.isDigit

/-- `re.search(r"^paper\d*$", s, re.IGNORECASE)`: `paper` followed only
by digits. -/
def matchPaperNum (t : List Char) : Bool :=
  startsCI (("paper").toList) t && (t.drop 5).all Char.isDigit

/-- The `junk_patterns` loop (source lines 58–66), in source order:
`^microsoft word`, `^untitled`, `^latex`, `^presentation`, `\.pdf$`,
`\.docx?$`, `^slide`, `^document\d*$`, `^paper\d*$`, all
case-insensitive. -/
def is_junk (t : List Char) : Bool :=
  startsCI (("microsoft word").toList) t || startsCI (("untitled").toList) t ||
  startsCI (("latex").toList) t || startsCI (("presentation").toList) t ||
  endsCI ((".pdf").toList) t || endsCI ((".doc").toList) t || endsCI ((".docx").toList) t ||
  startsCI (("slide").toList) t || matchDocumentNum t || matchPaperNum t

/-- The header-noise filter of the span loop (source lines 94–96):
`re.search(r"^(doi|issn|http|www|vol\.|no\.|pp\.|page|date|accepted|received|copyright|license|downloaded from)", text, re.IGNORECASE)`. -/
def headerNoise (t : List Char) : Bool :=
  startsCI (("doi").toList) t || startsCI (("issn").toList) t ||
  startsCI (("http").toList) t || startsCI (("www").toList) t ||
  startsCI (("vol.").toList) t || startsCI (("no.").toList) t ||
  startsCI (("pp.").toList) t || startsCI (("page").toList) t ||
  startsCI (("date").toList) t || startsCI (("accepted").toList) t ||
  startsCI (("received").toList) t || startsCI (("copyright").toList) t ||
  startsCI (("license").toList) t || startsCI (("downloaded from").toList) t

/-- Attempt to finish a match of `\b[A-Z]\.\s?[A-Z]` whose `[A-Z]` head
has been accepted at the current position: `rest` is everything after
that head.  Returns the last matched character (the new `prev`) and the
remainder after the match.  The greedy `\s?` first tries to consume one
white-space character and backtracks to the empty alternative. -/
def initialsStep (rest : List Char) : Option (Char × List Char) :=
  match rest with
  | '.' :: d :: r3 =>
    if isPySpace d then
      match r3 with
      | e :: r4 => if e.isUpper then some (e, r4) else none
      | [] => none
    else if d.isUpper then some (d, r3) else none
  | _ => none

theorem initialsStep_rest_le (rest : List Char) (lc : Char) (after : List Char)
    (h : initialsStep rest = some (lc, after)) : after.length + 2 ≤ rest.length := by
  unfold initialsStep at h
  split at h
  · rename_i d r3
    split at h
    · split at h
      · split at h
        · simp only [Option.some.injEq, Prod.mk.injEq] at h
          rename_i e r4 _
          rw [← h.2]
          simp only [List.length_cons]
          omega
        · exact absurd h (by simp)
      · exact absurd h (by simp)
    · split at h
      · simp only [Option.some.injEq, Prod.mk.injEq] at h
        rw [← h.2]
        simp only [List.length_cons]
        omega
      · exact absurd h (by simp)
  · exact absurd h (by simp)

/-- Recursion core of `initialsCount`; structural recursion on a fuel
counter so the kernel can evaluate it — every step consumes at least one
character, so `fuel = l.length` never runs out (`initialsCountGo_congr`). -/
def initialsCountGo : Nat → Option Char → List Char → Nat
  | _, _, [] => 0
  | 0, _, _ => 0
  | fuel + 1, prev, c :: rest =>
    if (match prev with | none => true | some p => !isWordChar p) && c.isUpper then
      match initialsStep rest with
      | some (lc, after) => 1 + initialsCountGo fuel (some lc) after
      | none => initialsCountGo fuel (some c) rest
    else initialsCountGo fuel (some c) rest

/-- Count the non-overlapping matches of `\b[A-Z]\.\s?[A-Z]` (source
line 145), scanning left to right; the word boundary `\b` checks the
character before the current position (none at the start of the
string). -/
def initialsCount (l : List Char) : Nat := initialsCountGo l.length none l

theorem initialsCountGo_nil (f : Nat) (prev : Option Char) :
    initialsCountGo f prev [] = 0 := by
  cases f <;> rfl

/-- The fuel is irrelevant as soon as it covers the input's length. -/
theorem initialsCountGo_congr :
    ∀ (f1 : Nat) (prev : Option Char) (l : List Char) (f2 : Nat),
      l.length ≤ f1 → l.length ≤ f2 →
      initialsCountGo f1 prev l = initialsCountGo f2 prev l := by
  intro f1
  induction f1 with
  | zero =>
    intro prev l f2 h1 _
    have : l = [] := List.length_eq_zero.mp (Nat.le_zero.mp h1)
    subst this
    rw [initialsCountGo_nil, initialsCountGo_nil]
  | succ g1 ih =>
    intro prev l f2 h1 h2
    match l, f2 with
    | [], f2 => rw [initialsCountGo_nil, initialsCountGo_nil]
    | c :: rest, g2 + 1 =>
      simp only [initialsCountGo]
      simp only [List.length_cons] at h1 h2
      by_cases hb :
          ((match prev with | none => true | some p => !isWordChar p) && c.isUpper) = true
      · simp only [if_pos hb]
        cases hs : initialsStep rest with
        | some p =>
          obtain ⟨lc, after⟩ := p
          have := initialsStep_rest_le rest lc after hs
          dsimp only
          rw [ih (some lc) after g2 (by omega) (by omega)]
        | none =>
          dsimp only
          rw [ih (some c) rest g2 (by omega) (by omega)]
      · simp only [if_neg hb]
        rw [ih (some c) rest g2 (by omega) (by omega)]

/-! ## Data model: spans, candidates, documents, files, result rows -/

/-- One leaf text run of the page-1 `dict` extraction: `s["text"]`,
`s["size"]`, and the bounding box ordinates `s["bbox"][1]` (top) and
`s["bbox"][3]` (bottom). -/
structure Span where
  text : List Char
  size : Frac
  y0 : Frac
  y1 : Frac
deriving DecidableEq, Repr

/-- A surviving candidate (source lines 98–103): stripped text, font
size, `y = bbox[1]`, `height = bbox[3] - bbox[1]`. -/
structure Cand where
  text : List Char
  size : Frac
  y : Frac
  height : Frac
deriving DecidableEq, Repr

/-- What PyMuPDF delivers for a successfully opened document:
`doc.metadata.get("title", "")`, the `p.get_text("text")` result of each
page in order (so `doc[:6]` is `pageTexts.take 6` and `doc[0]` exists
iff `pageTexts` is non-empty), and `page.get_text("dict")["blocks"]` of
page 1 — each block is `none` when it has no `"lines"` key (image
block), otherwise its lines, each line a list of spans. -/
structure FitzDoc where
  metaTitle : List Char
  pageTexts : List (List Char)
  page1Blocks : List (Option (List (List Span)))
deriving Repr

/-- One input to `process_single_pdf`, modelled at the engine interface:
what `fitz.open` returns on this file's bytes (or the message of the
exception it raises), what `pdfplumber.open` returns (each page's
`extract_text()`, `none` for a `None` result), and an oracle for a
runtime exception escaping the helpers inside the `try` of
`process_single_pdf` (the helpers swallow all engine errors, so only a
runtime error such as `MemoryError` can reach that `except`). -/
structure PdfFile where
  fitzOpen : Except (List Char) FitzDoc
  plumberOpen : Except (List Char) (List (Option (List Char)))
  unexpectedError : Option (List Char)

/-- One `ExtractionResult` row: the dict
`{"File Name": …, "Exact Title": …, "Email": …}`. -/
structure Row where
  fileName : List Char
  exactTitle : List Char
  email : List Char
deriving DecidableEq, Repr

def unknownTitle : List Char := ("Unknown Title").toList

def errorTag : List Char := ("Error").toList

def unreadableTag : List Char := ("Unreadable PDF").toList

def noEmailTag : List Char := ("No Email Found").toList

/-! ## `extract_text_content` (source lines 8–34) -/

/-- The pdfplumber loop: `t = p.extract_text(); if t: text += t + "\n"`
(`None` and the empty string are both falsy and skipped). -/
def plumberConcat : List (Option (List Char)) → List Char
  | [] => []
  | none :: r => plumberConcat r
  | some t :: r => if t.isEmpty then plumberConcat r else t ++ '\n' :: plumberConcat r

/-- The fitz phase (source lines 15–21): `text` after the first
`try/except` — the concatenated `get_text` of the first 6 pages, or the
empty string when `fitz.open` raised (swallowed by `except: pass`). -/
def fitzText (f : PdfFile) : List Char :=
  match f.fitzOpen with
  | Except.ok doc => joinNl (doc.pageTexts.take 6)
  | Except.error _ => []

/-- `extract_text_content(path)`: fitz text of the first 6 pages; if the
trimmed result is shorter than 50 characters, *append* the pdfplumber
text of the first 6 pages (`text += t + "\n"` keeps the fitz text);
return the trimmed total.  Failures of either engine are swallowed
(`except Exception: pass`) and contribute nothing. -/
def extract_text_content (f : PdfFile) : List Char :=
  pyStrip
    (if (pyStrip (fitzText f)).length < 50 then
      match f.plumberOpen with
      | Except.ok pages => fitzText f ++ plumberConcat (pages.take 6)
      | Except.error _ => fitzText f
    else fitzText f)

/-! ## Candidate construction and sorting (source lines 72–117) -/

/-- The span loop body (source lines 82–103): strip the text, compute
`y = bbox[1]` and `height = bbox[3] - bbox[1]`, and drop the span when
the text is shorter than 3 characters, matches the numeric/punctuation
pattern, or starts with header noise. -/
def spanFilter (s : Span) : Option Cand :=
  if (pyStrip s.text).length < 3 then none
  else if matchNumPunct (pyStrip s.text) then none
  else if headerNoise (pyStrip s.text) then none
  else some ⟨pyStrip s.text, s.size, s.y0, s.y1.sub s.y0⟩

/-- All spans of page 1 in block/line/span order (blocks without a
`"lines"` key are skipped by the `if "lines" not in b: continue`). -/
def allSpans (blocks : List (Option (List (List Span)))) : List Span :=
  ((blocks.filterMap id).flatten).flatten

/-- The `candidates` list (source lines 77–103). -/
def mkCandidates (blocks : List (Option (List (List Span)))) : List Cand :=
  (allSpans blocks).filterMap spanFilter

/-- Sort key of `candidates.sort(key=lambda x: x["size"], reverse=True)`:
`a` may stay before `b` iff `b.size ≤ a.size`. -/
def sizeGe (a b : Cand) : Prop := Frac.le b.size a.size

instance : DecidableRel sizeGe := fun a b => inferInstanceAs (Decidable (Frac.le _ _))

instance : IsTotal Cand sizeGe := ⟨fun a b => Frac.le_total' b.size a.size⟩

instance : IsTrans Cand sizeGe := ⟨fun _ _ _ h1 h2 => Frac.le_trans' h2 h1⟩

/-- Sort key of `title_spans.sort(key=lambda x: x["y"])`. -/
def yLe (a b : Cand) : Prop := Frac.le a.y b.y

instance : DecidableRel yLe := fun a b => inferInstanceAs (Decidable (Frac.le _ _))

instance : IsTotal Cand yLe := ⟨fun a b => Frac.le_total' a.y b.y⟩

instance : IsTrans Cand yLe := ⟨fun _ _ _ h1 h2 => Frac.le_trans' h1 h2⟩

/-- `candidates.sort(key=lambda x: x["size"], reverse=True)` — Python's
sort is stable; insertion sort with the non-strict relation `sizeGe`
computes exactly that stable descending order (an element is inserted
after every strictly larger one and before every tied, later one). -/
def sortBySizeDesc (l : List Cand) : List Cand := List.insertionSort sizeGe l

/-- `title_spans.sort(key=lambda x: x["y"])` — stable ascending sort. -/
def sortByYAsc (l : List Cand) : List Cand := List.insertionSort yLe l

/-! ## The clustering loop (source lines 119–150) -/

/-- The `for i in range(1, len(title_spans))` loop: accumulate each next
span's text unless a break condition fires; on a break the remaining
spans are discarded.  `lastY`/`lastH` are the position of the last
*accepted* span. -/
def clusterGo : List Cand → Frac → Frac → List (List Char)
  | [], _, _ => []
  | c :: rest, lastY, lastH =>
    if Frac.lt (lastH.mul frac13) (c.y.sub (lastY.add lastH)) then []
    else if hasSub (lowerStr c.text) (("@").toList) ||
        hasSub (lowerStr c.text) (("email").toList) then []
    else if hasSub (lowerStr c.text) (("university").toList) ||
        hasSub (lowerStr c.text) (("institute").toList) ||
        hasSub (lowerStr c.text) (("department").toList) ||
        hasSub (lowerStr c.text) (("laboratory").toList) then []
    else if hasSub (lowerStr c.text) (("received").toList) ||
        hasSub (lowerStr c.text) (("accepted").toList) ||
        hasSub (lowerStr c.text) (("correspondence").toList) then []
    else if 2 < c.text.count ',' then []
    else if 1 < initialsCount c.text then []
    else c.text :: clusterGo rest c.y c.height

/-- `final_parts` (source lines 120–150): the first title span always
enters, the rest via the clustering loop. -/
def cluster : List Cand → List (List Char)
  | [] => []
  | t0 :: rest => t0.text :: clusterGo rest t0.y t0.height

/-! ## The visual-title pipeline (source lines 105–172), split into the
stages the source computes in order.  Each stage recomputes its
predecessors (they are pure), which keeps every stage addressable in the
theorems below. -/

/-- `candidates` after the in-place descending stable sort (line 109). -/
def sortedCands (blocks : List (Option (List (List Span)))) : List Cand :=
  sortBySizeDesc (mkCandidates blocks)

/-- `max_size = candidates[0]["size"]` (line 111; only used when
candidates exist). -/
def maxSize (blocks : List (Option (List (List Span)))) : Frac :=
  match sortedCands blocks with
  | [] => Frac.ofInt 0
  | top :: _ => top.size

/-- `title_spans = [c for c in candidates if c["size"] > max_size * 0.99]`
(line 114). -/
def titleSpans (blocks : List (Option (List (List Span)))) : List Cand :=
  (sortedCands blocks).filter (fun c => decide (Frac.lt ((maxSize blocks).mul frac99) c.size))

/-- The clustered, joined, white-space-collapsed and stripped primary
visual title (lines 117–154). -/
def primaryTitle (blocks : List (Option (List (List Span)))) : List Char :=
  pyStrip (collapseWs (joinSpace (cluster (sortByYAsc (titleSpans blocks)))))

/-- The sanity-check trigger on the primary title (line 157):
`len(title) < 5 or re.match(r"^[\d\s]+$", title)`. -/
def degenerateTitle (t : List Char) : Bool :=
  decide (t.length < 5) || matchNumSpace t

/-- `remaining = [c for c in candidates if c["size"] <= max_size * 0.99]`
(line 159) — the candidates below the largest font group, still in
descending size order. -/
def remainingCands (blocks : List (Option (List (List Span)))) : List Cand :=
  (sortedCands blocks).filter (fun c => decide (Frac.le c.size ((maxSize blocks).mul frac99)))

/-- The secondary fallback title (lines 160–167): take the next largest
font group from `remaining` with the same `0.99` tolerance
(`max_size_2 = remaining[0]["size"]`), sort it by y, join all its texts
with spaces (no clustering), collapse white-space and strip. -/
def secondaryTitle (blocks : List (Option (List (List Span)))) : List Char :=
  match remainingCands blocks with
  | [] => []
  | r0 :: _ =>
    pyStrip (collapseWs (joinSpace
      ((sortByYAsc ((remainingCands blocks).filter
        (fun c => decide (Frac.lt (r0.size.mul frac99) c.size)))).map Cand.text)))

/-- Strategy 2, the visual title (source lines 72–172 after the metadata
check): `"Unknown Title"` when no candidate survives, else the primary
clustered title, replaced by the secondary fallback title exactly when
the primary is degenerate, more than one candidate exists, `remaining`
is non-empty, and the secondary title has length > 5 and is not
all-numeric. -/
def visual_title (blocks : List (Option (List (List Span)))) : List Char :=
  if (mkCandidates blocks).isEmpty then unknownTitle
  else if degenerateTitle (primaryTitle blocks) && decide (1 < (sortedCands blocks).length) then
    match remainingCands blocks with
    | [] => primaryTitle blocks
    | _ :: _ =>
      if decide (5 < (secondaryTitle blocks).length) && !matchNumSpace (secondaryTitle blocks) then
        secondaryTitle blocks
      else primaryTitle blocks
  else primaryTitle blocks

/-! ## Strategy 1: metadata title (source lines 45–70) -/

/-- The strict metadata validation (lines 49–68): non-empty and longer
than 5, not numeric/punctuation-only, not longer than 200, no junk
pattern. -/
def metaAccepted (meta : List Char) : Bool :=
  if !meta.isEmpty && decide (5 < meta.length) then
    if matchNumPunct meta then false
    else if decide (200 < meta.length) then false
    else if is_junk meta then false
    else true
  else false

/-- `get_strict_title(path, text_content)` (source lines 36–176; the
`text_content` parameter is unused by the source as well).  When
`fitz.open` raises, or the document has no pages (`doc[0]` raises
`IndexError` on the visual path), the catch-all `except` returns
`"Unknown Title"`.  An accepted metadata title is returned as stripped
(`meta_title = doc.metadata.get("title", "").strip()`). -/
def get_strict_title (f : PdfFile) (text_content : List Char) : List Char :=
  match f.fitzOpen with
  | Except.error _ => unknownTitle
  | Except.ok doc =>
    if metaAccepted (pyStrip doc.metaTitle) then pyStrip doc.metaTitle
    else if doc.pageTexts.isEmpty then unknownTitle
    else visual_title doc.page1Blocks

/-! ## `process_single_pdf` (source lines 190–243)

The input bytes are materialised to a temporary file (deleted in the
`finally` on every exit path), the helpers run inside a `try`, and a
bare `except Exception as e` converts any escaping exception into the
single row `{"File Name": name, "Exact Title": "Error", "Email": str(e)}`.
The helpers swallow every engine failure themselves, so the oracle
`unexpectedError` models the only exceptions that can reach the handler
(runtime errors such as `MemoryError`). -/
def process_single_pdf (f : PdfFile) (file_name : List Char)
    (exclude_no_email : Bool := true) : List Row :=
  match f.unexpectedError with
  | some e => [⟨file_name, errorTag, e⟩]
  | none =>
    if !(extract_text_content f).isEmpty then
      if !(extract_emails (extract_text_content f)).isEmpty then
        (extract_emails (extract_text_content f)).map
          (fun em => ⟨file_name, get_strict_title f (extract_text_content f), em⟩)
      else if !exclude_no_email then
        [⟨file_name, get_strict_title f (extract_text_content f), noEmailTag⟩]
      else []
    else if !exclude_no_email then [⟨file_name, unreadableTag, errorTag⟩]
    else []

/-! ## Handle accounting (for the resource-release requirement)

`get_strict_title` opens a fitz document and closes it manually on the
two normal exits (lines 69 and 75 of the source).  If an exception fires
between `fitz.open` (line 43) and those `doc.close()` calls — e.g.
`page = doc[0]` raising `IndexError` on a document fitz reports as
having zero pages — control jumps to the `except` handler (line 174),
which returns `"Unknown Title"` *without closing the document*.  The
variant below returns, next to the title, how many fitz document
handles the call leaves open.  (The temporary file of
`process_single_pdf`, in contrast, is removed in a `finally` block on
every exit path; and the fitz handle of `extract_text_content` is
closed on its normal path, which the model treats as total.) -/
def get_strict_title_handles (f : PdfFile) : List Char × Nat :=
  match f.fitzOpen with
  | Except.error _ => (unknownTitle, 0)
  | Except.ok doc =>
    if metaAccepted (pyStrip doc.metaTitle) then (pyStrip doc.metaTitle, 0)
    else if doc.pageTexts.isEmpty then (unknownTitle, 1)
    else (visual_title doc.page1Blocks, 0)

/-- `process_single_pdf` instrumented for resources: the result rows,
the number of fitz document handles left open when the call returns, and
whether the temporary file was removed (the `finally` removes it on
every exit path, so this component is `true` on every branch). -/
def process_single_pdf_leaks (f : PdfFile) (file_name : List Char)
    (exclude_no_email : Bool := true) : List Row × Nat × Bool :=
  match f.unexpectedError with
  | some e => ([⟨file_name, errorTag, e⟩], 0, true)
  | none =>
    if !(extract_text_content f).isEmpty then
      ((if !(extract_emails (extract_text_content f)).isEmpty then
          (extract_emails (extract_text_content f)).map
            (fun em => ⟨file_name, (get_strict_title_handles f).1, em⟩)
        else if !exclude_no_email then
          [⟨file_name, (get_strict_title_handles f).1, noEmailTag⟩]
        else []),
       (get_strict_title_handles f).2, true)
    else ((if !exclude_no_email then [⟨file_name, unreadableTag, errorTag⟩] else []), 0, true)

/-- The page-1 spans reachable from a file (empty when the document does
not open); carrier of the font-size positivity hypothesis. -/
def filesSpans (f : PdfFile) : List Span :=
  match f.fitzOpen with
  | Except.ok d => allSpans d.page1Blocks
  | Except.error _ => []

/-! ## Helper lemmas: heads of stripped strings -/

theorem dropWhile_head_not {p : Char → Bool} :
    ∀ {l t : List Char} {c : Char}, l.dropWhile p = c :: t → p c = false := by
  intro l
  induction l with
  | nil => intro t c h; simp at h
  | cons a l ih =>
    intro t c h
    by_cases ha : p a
    · rw [List.dropWhile_cons_of_pos ha] at h
      exact ih h
    · rw [List.dropWhile_cons_of_neg ha] at h
      cases h
      simpa using ha

theorem dropTrailWs_eq_nil_iff {l : List Char} :
    dropTrailWs l = [] ↔ ∀ c ∈ l, isPySpace c = true := by
  unfold dropTrailWs
  rw [List.reverse_eq_nil_iff, List.dropWhile_eq_nil_iff]
  constructor
  · intro h c hc
    exact h c (List.mem_reverse.mpr hc)
  · intro h c hc
    exact h c (List.mem_reverse.mp hc)

theorem dropTrailWs_prefix (l : List Char) : dropTrailWs l <+: l := by
  unfold dropTrailWs
  have h : l.reverse.dropWhile isPySpace <:+ l.reverse :=
    ⟨l.reverse.takeWhile isPySpace, List.takeWhile_append_dropWhile isPySpace l.reverse⟩
  have h2 : (l.reverse.dropWhile isPySpace).reverse <+: l.reverse.reverse :=
    List.reverse_prefix.mpr h
  simpa using h2

theorem pyStrip_head_not_space {l t : List Char} {c : Char}
    (h : pyStrip l = c :: t) : isPySpace c = false := by
  unfold pyStrip at h
  obtain ⟨k, hk⟩ := dropTrailWs_prefix (l.dropWhile isPySpace)
  rw [h] at hk
  exact dropWhile_head_not hk.symm

theorem pyStrip_cons_ne_nil {c : Char} (t : List Char)
    (hc : isPySpace c = false) : pyStrip (c :: t) ≠ [] := by
  unfold pyStrip
  rw [List.dropWhile_cons_of_neg (by simp [hc])]
  intro hnil
  have := dropTrailWs_eq_nil_iff.mp hnil c (by simp)
  rw [hc] at this
  cases this

/-- A non-empty result of `pyStrip` keeps a cons shape with a
non-white-space head. -/
theorem pyStrip_shape {l : List Char} (h : pyStrip l ≠ []) :
    ∃ c t, pyStrip l = c :: t ∧ isPySpace c = false := by
  cases hp : pyStrip l with
  | nil => exact absurd hp h
  | cons c t => exact ⟨c, t, rfl, pyStrip_head_not_space hp⟩

theorem collapseWs_cons_not_space {c : Char} (t : List Char)
    (hc : isPySpace c = false) : collapseWs (c :: t) = c :: collapseWs t := by
  unfold collapseWs
  simp only [List.length_cons, collapseWsGo, if_neg (by simp [hc] : ¬ isPySpace c = true)]

theorem joinSpace_cons_head (c : Char) (x : List Char) (rest : List (List Char)) :
    ∃ u, joinSpace ((c :: x) :: rest) = c :: u := by
  cases rest with
  | nil => exact ⟨x, rfl⟩
  | cons y t => exact ⟨x ++ ' ' :: joinSpace (y :: t), rfl⟩

/-- Any string starting with a non-white-space character survives
`pyStrip ∘ collapseWs` (used for non-emptiness of the visual title). -/
theorem pyStrip_collapseWs_cons_ne_nil {c : Char} (t : List Char)
    (hc : isPySpace c = false) : pyStrip (collapseWs (c :: t)) ≠ [] := by
  rw [collapseWs_cons_not_space t hc]
  exact pyStrip_cons_ne_nil _ hc

theorem Frac.le_refl' (a : Frac) : a.le a := by simp [Frac.le]

/-! ## Helper lemmas: the candidate chain of the visual title -/

theorem spanFilter_inv {s : Span} {c : Cand} (h : spanFilter s = some c) :
    c.text = pyStrip s.text ∧ 3 ≤ c.text.length ∧ c.size = s.size := by
  unfold spanFilter at h
  split_ifs at h with h1 h2 h3
  cases h
  refine ⟨rfl, ?_, rfl⟩
  dsimp only
  omega

theorem cand_size_pos {blocks : List (Option (List (List Span)))}
    (hs : ∀ s ∈ allSpans blocks, s.size.IsPos) {c : Cand}
    (h : c ∈ mkCandidates blocks) : c.size.IsPos := by
  obtain ⟨s, hsm, hsf⟩ := List.mem_filterMap.mp h
  rw [(spanFilter_inv hsf).2.2]
  exact hs s hsm

theorem cand_text_shape {blocks : List (Option (List (List Span)))} {c : Cand}
    (h : c ∈ mkCandidates blocks) :
    ∃ a t, c.text = a :: t ∧ isPySpace a = false := by
  obtain ⟨s, _, hsf⟩ := List.mem_filterMap.mp h
  obtain ⟨htext, hlen, -⟩ := spanFilter_inv hsf
  have hne : c.text ≠ [] := by
    intro hnil
    rw [hnil] at hlen
    simp at hlen
  rw [htext] at hne ⊢
  exact pyStrip_shape hne

theorem sortedCands_perm (blocks : List (Option (List (List Span)))) :
    (sortedCands blocks).Perm (mkCandidates blocks) :=
  List.perm_insertionSort _ _

theorem mem_sortedCands {blocks : List (Option (List (List Span)))} {c : Cand} :
    c ∈ sortedCands blocks ↔ c ∈ mkCandidates blocks :=
  (sortedCands_perm blocks).mem_iff

/-- After the descending stable sort the head bounds every size
(`max_size = candidates[0]["size"]` is the maximum). -/
theorem sortedCands_head_max {blocks : List (Option (List (List Span)))}
    {top : Cand} {rest : List Cand} (h : sortedCands blocks = top :: rest) :
    ∀ b ∈ sortedCands blocks, Frac.le b.size top.size := by
  have hs : List.Sorted sizeGe (sortedCands blocks) := List.sorted_insertionSort _ _
  rw [h] at hs ⊢
  intro b hb
  rcases List.mem_cons.mp hb with rfl | hb
  · exact Frac.le_refl' _
  · exact List.rel_of_sorted_cons hs b hb

/-- The maximal candidate survives its own tolerance filter
(`c["size"] > max_size * 0.99` holds for `c = candidates[0]` since the
size is positive). -/
theorem top_mem_titleSpans {blocks : List (Option (List (List Span)))}
    {top : Cand} {rest : List Cand} (h : sortedCands blocks = top :: rest)
    (hpos : top.size.IsPos) : top ∈ titleSpans blocks := by
  unfold titleSpans
  rw [List.mem_filter]
  refine ⟨by rw [h]; simp, ?_⟩
  have hmax : maxSize blocks = top.size := by
    unfold maxSize
    rw [h]
  rw [hmax]
  exact decide_eq_true (Frac.mul99_lt hpos)

/-- With positive font sizes and at least one candidate, the clustered
primary title is a non-empty string: the first title span's text begins
with a non-white-space character that survives joining, white-space
collapsing and stripping. -/
theorem primaryTitle_ne_nil {blocks : List (Option (List (List Span)))}
    (hs : ∀ s ∈ allSpans blocks, s.size.IsPos)
    (hne : mkCandidates blocks ≠ []) : primaryTitle blocks ≠ [] := by
  have hperm := sortedCands_perm blocks
  have hsne : sortedCands blocks ≠ [] := by
    intro h0
    rw [h0] at hperm
    exact hne (List.Perm.eq_nil hperm.symm)
  obtain ⟨top, rest, htop⟩ := List.exists_cons_of_ne_nil hsne
  have htopmem : top ∈ mkCandidates blocks :=
    mem_sortedCands.mp (by rw [htop]; simp)
  have hpos : top.size.IsPos := cand_size_pos hs htopmem
  have htm := top_mem_titleSpans htop hpos
  have hyperm : (sortByYAsc (titleSpans blocks)).Perm (titleSpans blocks) :=
    List.perm_insertionSort _ _
  have hyne : sortByYAsc (titleSpans blocks) ≠ [] := by
    intro h0
    rw [h0] at hyperm
    rw [List.Perm.eq_nil hyperm.symm] at htm
    cases htm
  obtain ⟨t0, yrest, hy⟩ := List.exists_cons_of_ne_nil hyne
  have ht0mem : t0 ∈ mkCandidates blocks := by
    have h1 : t0 ∈ sortByYAsc (titleSpans blocks) := by rw [hy]; simp
    have h2 : t0 ∈ titleSpans blocks := hyperm.subset h1
    exact mem_sortedCands.mp (List.mem_filter.mp h2).1
  obtain ⟨a, t, hat, haw⟩ := cand_text_shape ht0mem
  unfold primaryTitle
  rw [hy]
  simp only [cluster]
  rw [hat]
  obtain ⟨u, hu⟩ := joinSpace_cons_head a t (clusterGo yrest t0.y t0.height)
  rw [hu]
  exact pyStrip_collapseWs_cons_ne_nil u haw

theorem unknownTitle_ne_nil : unknownTitle ≠ [] := by decide

/-- The visual title is never the empty string when font sizes are
positive. -/
theorem visual_title_ne_nil {blocks : List (Option (List (List Span)))}
    (hs : ∀ s ∈ allSpans blocks, s.size.IsPos) : visual_title blocks ≠ [] := by
  unfold visual_title
  by_cases hc : (mkCandidates blocks).isEmpty
  · rw [if_pos hc]
    exact unknownTitle_ne_nil
  · rw [if_neg hc]
    have hne : mkCandidates blocks ≠ [] := by
      simpa [List.isEmpty_iff] using hc
    have hp := primaryTitle_ne_nil hs hne
    split
    · split
      · exact hp
      · split
        · rename_i hgood
          intro h0
          rw [h0] at hgood
          simp at hgood
        · exact hp
    · exact hp

theorem metaAccepted_five_lt {m : List Char} (h : metaAccepted m = true) :
    5 < m.length := by
  unfold metaAccepted at h
  by_cases hg : (!m.isEmpty && decide (5 < m.length)) = true
  · simpa using (Bool.and_elim_right hg)
  · rw [if_neg hg] at h
    cases h

/-! ## Helper lemmas: lower-casing and first-occurrence deduplication -/

theorem toNat_ofNat_valid (n : Nat) (h : n.isValidChar) : (Char.ofNat n).toNat = n := by
  rw [Char.ofNat, dif_pos h]
  rfl

/-- ASCII lower-casing is idempotent. -/
theorem toLower_toLower (c : Char) : c.toLower.toLower = c.toLower := by
  unfold Char.toLower
  by_cases h : c.toNat ≥ 65 ∧ c.toNat ≤ 90
  · rw [if_pos h]
    have hv : (c.toNat + 32).isValidChar := Or.inl (by omega)
    have ht : (Char.ofNat (c.toNat + 32)).toNat = c.toNat + 32 := toNat_ofNat_valid _ hv
    rw [if_neg]
    rw [ht]
    omega
  · rw [if_neg h, if_neg h]

theorem lowerStr_idem (l : List Char) : lowerStr (lowerStr l) = lowerStr l := by
  unfold lowerStr
  rw [List.map_map]
  apply List.map_congr_left
  intro a _
  exact toLower_toLower a

theorem dedupKeepFirst_mem :
    ∀ (n : Nat) (l : List (List Char)), l.length ≤ n →
      ∀ x, (x ∈ dedupKeepFirst l ↔ x ∈ l) := by
  intro n
  induction n with
  | zero =>
    intro l h x
    have : l = [] := List.length_eq_zero.mp (Nat.le_zero.mp h)
    subst this
    rw [dedupKeepFirst]
  | succ n ih =>
    intro l h x
    match l with
    | [] => rw [dedupKeepFirst]
    | a :: t =>
      rw [dedupKeepFirst]
      simp only [List.mem_cons] at h ⊢
      simp only [List.length_cons] at h
      have hlen : (t.filter (fun b => b ≠ a)).length ≤ n :=
        le_trans (List.length_filter_le _ _) (by omega)
      constructor
      · rintro (rfl | hx)
        · exact Or.inl rfl
        · exact Or.inr (List.mem_of_mem_filter ((ih _ hlen x).mp hx))
      · rintro (rfl | hx)
        · exact Or.inl rfl
        · by_cases hxa : x = a
          · exact Or.inl hxa
          · exact Or.inr ((ih _ hlen x).mpr (List.mem_filter.mpr ⟨hx, by simp [hxa]⟩))

theorem dedupKeepFirst_nodup :
    ∀ (n : Nat) (l : List (List Char)), l.length ≤ n →
      (dedupKeepFirst l).Nodup := by
  intro n
  induction n with
  | zero =>
    intro l h
    have : l = [] := List.length_eq_zero.mp (Nat.le_zero.mp h)
    subst this
    rw [dedupKeepFirst]
    exact List.nodup_nil
  | succ n ih =>
    intro l h
    match l with
    | [] =>
      rw [dedupKeepFirst]
      exact List.nodup_nil
    | a :: t =>
      rw [dedupKeepFirst]
      simp only [List.length_cons] at h
      have hlen : (t.filter (fun b => b ≠ a)).length ≤ n :=
        le_trans (List.length_filter_le _ _) (by omega)
      refine List.nodup_cons.mpr ⟨?_, ih _ hlen⟩
      intro hmem
      have := (dedupKeepFirst_mem n _ hlen a).mp hmem
      have := (List.mem_filter.mp this).2
      simp at this

theorem dedupKeepFirst_sublist :
    ∀ (n : Nat) (l : List (List Char)), l.length ≤ n →
      (dedupKeepFirst l).Sublist l := by
  intro n
  induction n with
  | zero =>
    intro l h
    have : l = [] := List.length_eq_zero.mp (Nat.le_zero.mp h)
    subst this
    rw [dedupKeepFirst]
  | succ n ih =>
    intro l h
    match l with
    | [] => rw [dedupKeepFirst]
    | a :: t =>
      rw [dedupKeepFirst]
      simp only [List.length_cons] at h
      have hlen : (t.filter (fun b => b ≠ a)).length ≤ n :=
        le_trans (List.length_filter_le _ _) (by omega)
      refine List.Sublist.cons₂ a ?_
      exact (ih _ hlen).trans (List.filter_sublist t)

/-- The `seen`-set loop of `extract_emails` computes exactly the
first-occurrence deduplication of the lower-cased match list, restricted
to the matches not yet seen. -/
theorem emailLoop_eq :
    ∀ (l seen : List (List Char)),
      emailLoop l seen =
        dedupKeepFirst ((l.map lowerStr).filter (fun b => b ∉ seen)) := by
  intro l
  induction l with
  | nil =>
    intro seen
    rw [emailLoop]
    rw [List.map_nil, List.filter_nil, dedupKeepFirst]
  | cons e rest ih =>
    intro seen
    rw [emailLoop, List.map_cons]
    by_cases hmem : lowerStr e ∈ seen
    · rw [if_pos hmem, List.filter_cons_of_neg (by simp [hmem])]
      exact ih seen
    · rw [if_neg hmem, List.filter_cons_of_pos (by simp [hmem])]
      rw [dedupKeepFirst]
      congr 1
      rw [ih (lowerStr e :: seen)]
      congr 1
      rw [List.filter_filter]
      apply List.filter_congr
      intro x _
      by_cases h1 : x = lowerStr e <;> by_cases h2 : x ∈ seen <;> simp [h1, h2]

/-! ## Concrete inputs used by the claim theorems and witnesses -/

/-- Bytes neither engine can open: `fitz.open` and `pdfplumber.open`
both raise. -/
def brokenFileC1 : PdfFile :=
  ⟨Except.error (("cannot open broken document").toList),
   Except.error (("not a PDF").toList), none⟩

/-- A document whose fitz text is short (`"hello"`) while pdfplumber
extracts `"world"`. -/
def docC2 : FitzDoc := ⟨[], [("hello").toList], []⟩

def fileC2 : PdfFile :=
  ⟨Except.ok docC2, Except.ok [some (("world").toList)], none⟩

/-- A document whose embedded metadata title has length exactly 200. -/
def docC3 : FitzDoc := ⟨List.replicate 200 'a', [], []⟩

def fileC3 : PdfFile := ⟨Except.ok docC3, Except.error (("x").toList), none⟩

/-- A document with an ordinary valid metadata title. -/
def docC3w : FitzDoc := ⟨("A Study of Widgets").toList, [], []⟩

def fileC3w : PdfFile := ⟨Except.ok docC3w, Except.error (("x").toList), none⟩

/-- The three spans of the specification's clustering example. -/
def sp1 : Span := ⟨("Deep Learning").toList, ⟨24, 0⟩, ⟨0, 0⟩, ⟨10, 0⟩⟩

def sp2 : Span := ⟨("for Vision").toList, ⟨24, 0⟩, ⟨11, 0⟩, ⟨21, 0⟩⟩

def sp3 : Span := ⟨("J. Smith, A. Doe").toList, ⟨12, 0⟩, ⟨25, 0⟩, ⟨33, 0⟩⟩

def blocks7 : List (Option (List (List Span))) := [some [[sp1, sp2, sp3]]]

/-- Page-1 layout of the clustering example, no usable metadata title. -/
def doc7 : FitzDoc := ⟨[], [("x").toList], blocks7⟩

def file7 : PdfFile := ⟨Except.ok doc7, Except.error (("e").toList), none⟩

/-- Sample text with one address occurring in two spellings. -/
def demoText : List Char := ("Reach us: Ann@Ex.COM, ann@ex.com").toList

/-- A document with readable text and no email address. -/
def docC6 : FitzDoc := ⟨[], [("hello").toList], []⟩

def fileC6 : PdfFile := ⟨Except.ok docC6, Except.error (("x").toList), none⟩

/-- Spans whose largest-font group gives a degenerate title (`"Hi!!"`,
4 characters) and whose second font group carries the real title. -/
def sp8a : Span := ⟨("Hi!!").toList, ⟨20, 0⟩, ⟨0, 0⟩, ⟨10, 0⟩⟩

def sp8b : Span := ⟨("A Real Title Here").toList, ⟨12, 0⟩, ⟨20, 0⟩, ⟨30, 0⟩⟩

def blocks8 : List (Option (List (List Span))) := [some [[sp8a, sp8b]]]

/-- Bytes that fitz opens as a zero-page document (`doc[0]` raises
`IndexError`) while pdfplumber still extracts text — so
`process_single_pdf` reaches `get_strict_title`, whose exception path
skips `doc.close()`. -/
def leakFile : PdfFile :=
  ⟨Except.ok ⟨[], [], []⟩,
   Except.ok [some (("please contact our office for details").toList)], none⟩

/-- A file on which a runtime exception escapes the helpers (the
`except Exception as e` path of `process_single_pdf`). -/
def fileC10 : PdfFile :=
  ⟨Except.error (("z").toList), Except.error (("z").toList), some (("boom").toList)⟩

/-! ## The claims -/

/-- C1, counterexample: for bytes that neither engine can open, the
claim "process_single_pdf returns exactly one row with title `"Error"`
regardless of the excludeIfNoEmail flag" is false — with the flag set
the result is the empty list, and with the flag clear the single row's
title is `"Unreadable PDF"`, not `"Error"` (the open failures are
swallowed inside `extract_text_content`, so the `except` handler of
`process_single_pdf` never runs). -/
theorem C1_counterexample :
    process_single_pdf brokenFileC1 (("broken.pdf").toList) true = [] ∧
    ∀ r ∈ process_single_pdf brokenFileC1 (("broken.pdf").toList) false,
      r.exactTitle ≠ errorTag := by decide

/-- C1, amended: for every input whose PDF bytes neither engine can open
(and no runtime error escapes the helpers), `process_single_pdf` returns
the empty list when `exclude_no_email` is true, and exactly one row
`{fileName, "Unreadable PDF", "Error"}` when it is false; no row with
title `"Error"` is produced, because the engine failures are swallowed
by `extract_text_content` and never reach the `except` handler. -/
theorem C1_amended (f : PdfFile) (name : List Char)
    (hf : ∃ e, f.fitzOpen = Except.error e)
    (hp : ∃ e, f.plumberOpen = Except.error e)
    (hu : f.unexpectedError = none) :
    process_single_pdf f name true = [] ∧
    process_single_pdf f name false = [⟨name, unreadableTag, errorTag⟩] := by
  obtain ⟨e1, hf⟩ := hf
  obtain ⟨e2, hp⟩ := hp
  have htext : extract_text_content f = [] := by
    unfold extract_text_content fitzText
    rw [hf, hp]
    rfl
  constructor <;>
  · unfold process_single_pdf
    rw [hu, htext]
    rfl

/-- Witness for C1: the amended statement at the concrete unopenable
input. -/
theorem C1_amended_witness :
    process_single_pdf brokenFileC1 (("broken.pdf").toList) true = [] ∧
    process_single_pdf brokenFileC1 (("broken.pdf").toList) false =
      [⟨("broken.pdf").toList, unreadableTag, errorTag⟩] :=
  C1_amended brokenFileC1 (("broken.pdf").toList) ⟨_, rfl⟩ ⟨_, rfl⟩ rfl

/-- C2, counterexample: with a 5-character fitz text `"hello"` and
pdfplumber text `"world"`, `extract_text_content` returns the
concatenation `"hello\nworld"`, not the secondary engine's text
`"world"` alone — the fallback appends (`text += t + "\n"`) instead of
replacing. -/
theorem C2_counterexample :
    extract_text_content fileC2 = ("hello\nworld").toList ∧
    extract_text_content fileC2 ≠ ("world").toList := by decide

/-- C2, amended: whenever the primary engine's trimmed text of the first
6 pages is shorter than 50 characters (and both engines open), the
secondary engine's page texts are *appended* to the primary text and the
function returns the trimmed concatenation — primary followed by
secondary, not the secondary text alone. -/
theorem C2_amended (f : PdfFile) (d : FitzDoc) (pages : List (Option (List Char)))
    (hf : f.fitzOpen = Except.ok d) (hp : f.plumberOpen = Except.ok pages)
    (hshort : (pyStrip (joinNl (d.pageTexts.take 6))).length < 50) :
    extract_text_content f =
      pyStrip (joinNl (d.pageTexts.take 6) ++ plumberConcat (pages.take 6)) := by
  unfold extract_text_content fitzText
  rw [hf, hp]
  dsimp only
  rw [if_pos hshort]

/-- Witness for C2: the amended statement at the concrete input. -/
theorem C2_amended_witness :
    extract_text_content fileC2 =
      pyStrip (joinNl (docC2.pageTexts.take 6) ++
        plumberConcat ([some (("world").toList)].take 6)) :=
  C2_amended fileC2 docC2 [some (("world").toList)] rfl rfl (by decide)

/-- C7: on the specification's example spans — "Deep Learning" (size 24,
y 0, height 10), "for Vision" (size 24, y 11, height 10), "J. Smith,
A. Doe" (size 12, y 25, height 8) — with no acceptable metadata title,
the resolver returns exactly "Deep Learning for Vision"; the third span
is excluded (smaller font). -/
theorem C7_cluster_example :
    get_strict_title file7 [] = ("Deep Learning for Vision").toList := by decide

/-- C9 (code bug): evaluation at the failing input.  For bytes that fitz
opens as a zero-page document while pdfplumber still extracts non-empty
email-free text, `process_single_pdf` (flag set) returns no rows, the
temporary file is removed (`finally`), but one fitz document handle is
left open: `doc[0]` raises `IndexError` after `fitz.open` inside
`get_strict_title` and the `except` handler returns without
`doc.close()`. -/
theorem C9_handle_leak :
    process_single_pdf_leaks leakFile (("l.pdf").toList) true = ([], 1, true) := by decide

/-- C10: every row returned by `process_single_pdf` — the error row, the
"Unreadable PDF" row, the "No Email Found" row and every per-email
fan-out row — carries the `file_name` argument in its "File Name"
field. -/
theorem C10_filename (f : PdfFile) (name : List Char) (ex : Bool) :
    ∀ r ∈ process_single_pdf f name ex, r.fileName = name := by
  intro r hr
  unfold process_single_pdf at hr
  split at hr
  · simp only [List.mem_singleton] at hr
    subst hr
    rfl
  · split at hr
    · split at hr
      · obtain ⟨em, -, rfl⟩ := List.mem_map.mp hr
        rfl
      · split at hr
        · simp only [List.mem_singleton] at hr
          subst hr
          rfl
        · cases hr
    · split at hr
      · simp only [List.mem_singleton] at hr
        subst hr
        rfl
      · cases hr

/-- Witness for C10: the row produced on the exception path of the
concrete input carries the passed file name. -/
theorem C10_witness :
    (⟨("a.pdf").toList, errorTag, ("boom").toList⟩ : Row).fileName = ("a.pdf").toList :=
  C10_filename fileC10 (("a.pdf").toList) true _ (by decide)

/-- C4, amended: for every input whose page-1 spans carry positive font
sizes (as every real font does; a size-0 span is the sole exception),
the title produced by `get_strict_title` is a non-empty string — a real
extracted title or the literal `"Unknown Title"`, never the empty
string. -/
theorem C4_title_nonempty (f : PdfFile) (x : List Char)
    (hs : ∀ s ∈ filesSpans f, s.size.IsPos) :
    get_strict_title f x ≠ [] := by
  unfold get_strict_title
  cases hf : f.fitzOpen with
  | error e => exact unknownTitle_ne_nil
  | ok d =>
    dsimp only
    split_ifs with h1 h2
    · have h5 := metaAccepted_five_lt h1
      intro h0
      rw [h0] at h5
      simp at h5
    · exact unknownTitle_ne_nil
    · apply visual_title_ne_nil
      intro s hsmem
      apply hs
      unfold filesSpans
      rw [hf]
      exact hsmem

/-- Witness for C4: the claim at the concrete clustering-example file. -/
theorem C4_witness : get_strict_title file7 [] ≠ [] :=
  C4_title_nonempty file7 [] (by decide)

/-- C5: `extract_emails` returns exactly the `EMAIL_RE` matches of the
text, each lower-cased, with case-insensitive duplicates removed keeping
the first occurrence (`dedupKeepFirst`), hence without duplicates, as a
sublist (order of first occurrences) of the lower-cased match list, with
unchanged membership, and with every returned address already
lower-case. -/
theorem C5_extract_emails_spec (text : List Char) :
    extract_emails text = dedupKeepFirst ((emailFindAll text).map lowerStr) ∧
    (extract_emails text).Nodup ∧
    (extract_emails text).Sublist ((emailFindAll text).map lowerStr) ∧
    (∀ e, e ∈ extract_emails text ↔ e ∈ (emailFindAll text).map lowerStr) ∧
    (∀ e ∈ extract_emails text, lowerStr e = e) := by
  have hkey : extract_emails text = dedupKeepFirst ((emailFindAll text).map lowerStr) := by
    unfold extract_emails
    rw [emailLoop_eq]
    congr 1
    simp
  refine ⟨hkey, ?_, ?_, ?_, ?_⟩
  · rw [hkey]
    exact dedupKeepFirst_nodup _ _ le_rfl
  · rw [hkey]
    exact dedupKeepFirst_sublist _ _ le_rfl
  · intro e
    rw [hkey]
    exact dedupKeepFirst_mem _ _ le_rfl e
  · intro e he
    rw [hkey] at he
    have hm := (dedupKeepFirst_mem _ _ le_rfl e).mp he
    obtain ⟨m, -, rfl⟩ := List.mem_map.mp hm
    exact lowerStr_idem m

/-- Witness for C5: the lower-cased address is reported exactly once on
the sample text (membership conjunct applied at a concrete input). -/
theorem C5_witness : ("ann@ex.com").toList ∈ extract_emails demoText :=
  ((C5_extract_emails_spec demoText).2.2.2.1 (("ann@ex.com").toList)).mpr (by decide)

/-- C6: for every document producing non-empty text with zero emails
(and no escaping runtime error), `process_single_pdf` returns the empty
list when `exclude_no_email` is true and exactly one row
`{fileName, title, "No Email Found"}` when it is false. -/
theorem C6_no_email (f : PdfFile) (name : List Char)
    (hu : f.unexpectedError = none)
    (htext : extract_text_content f ≠ [])
    (hemails : extract_emails (extract_text_content f) = []) :
    process_single_pdf f name true = [] ∧
    process_single_pdf f name false =
      [⟨name, get_strict_title f (extract_text_content f), noEmailTag⟩] := by
  have hie : (extract_text_content f).isEmpty = false := by
    rw [List.isEmpty_eq_false]
    exact htext
  constructor <;>
  · unfold process_single_pdf
    rw [hu, hie, hemails]
    rfl

/-- Witness for C6: both flag behaviours at the concrete email-free
document. -/
theorem C6_witness :
    process_single_pdf fileC6 (("f.pdf").toList) true = [] ∧
    process_single_pdf fileC6 (("f.pdf").toList) false =
      [⟨("f.pdf").toList, get_strict_title fileC6 (extract_text_content fileC6),
        noEmailTag⟩] :=
  C6_no_email fileC6 (("f.pdf").toList) rfl (by decide) (by decide)

/-- The nested metadata validation of the source collapses to a flat
conjunction — note the upper bound is `≤ 200` (the source rejects only
`len(meta_title) > 200`), not `< 200`. -/
theorem metaAccepted_iff (m : List Char) :
    metaAccepted m = true ↔
      (5 < m.length ∧ m.length ≤ 200 ∧
        matchNumPunct m = false ∧ is_junk m = false) := by
  unfold metaAccepted
  by_cases hg : (!m.isEmpty && decide (5 < m.length)) = true
  · rw [if_pos hg]
    have h5 : 5 < m.length := by simpa using (Bool.and_elim_right hg)
    split_ifs with h1 h2 h3
    · constructor
      · intro h
        cases h
      · rintro ⟨-, -, hnum, -⟩
        rw [h1] at hnum
        cases hnum
    · constructor
      · intro h
        cases h
      · rintro ⟨-, hlen, -, -⟩
        simp only [decide_eq_true_eq] at h2
        omega
    · constructor
      · intro h
        cases h
      · rintro ⟨-, -, -, hjunk⟩
        rw [h3] at hjunk
        cases hjunk
    · simp only [decide_eq_true_eq] at h2
      refine ⟨fun _ => ⟨h5, by omega, ?_, ?_⟩, fun _ => rfl⟩
      · simpa using h1
      · simpa using h3
  · rw [if_neg hg]
    constructor
    · intro h
      cases h
    · rintro ⟨h5, -, -, -⟩
      exfalso
      apply hg
      have hne : m ≠ [] := by
        intro h0
        rw [h0] at h5
        simp at h5
      simp [hne, h5]

set_option maxRecDepth 4000 in
/-- C3, counterexample: a 200-character all-letter metadata title is
accepted and returned by the resolver, although 200 is not strictly
between 5 and 200 — the source rejects only titles *longer* than 200
(`len(meta_title) > 200`). -/
theorem C3_counterexample :
    get_strict_title fileC3 [] = List.replicate 200 'a' ∧
    (List.replicate 200 'a' : List Char).length = 200 ∧
    ¬ (List.replicate 200 'a' : List Char).length < 200 := by decide

/-- C3, amended: the (stripped) metadata title is accepted as the final
title iff its length is strictly greater than 5 and at most 200, it is
not matched by `^[\d\s.\-_]+$`, and it matches no junk pattern; when
accepted, the resolver returns exactly that stripped metadata title,
bypassing the visual fallback. -/
theorem C3_amended (f : PdfFile) (d : FitzDoc) (x : List Char)
    (hf : f.fitzOpen = Except.ok d) :
    (metaAccepted (pyStrip d.metaTitle) = true ↔
      (5 < (pyStrip d.metaTitle).length ∧ (pyStrip d.metaTitle).length ≤ 200 ∧
        matchNumPunct (pyStrip d.metaTitle) = false ∧
        is_junk (pyStrip d.metaTitle) = false)) ∧
    (metaAccepted (pyStrip d.metaTitle) = true →
      get_strict_title f x = pyStrip d.metaTitle) := by
  refine ⟨metaAccepted_iff _, fun hacc => ?_⟩
  unfold get_strict_title
  rw [hf]
  dsimp only
  rw [if_pos hacc]

/-- Witness for C3: the concrete valid metadata title is returned
unchanged. -/
theorem C3_amended_witness :
    get_strict_title fileC3w [] = ("A Study of Widgets").toList := by
  have h := (C3_amended fileC3w docC3w [] rfl).2 (by decide)
  rw [h]
  decide

/-- With positive font sizes, a non-empty `remaining` list (a second
font-size group) forces more than one candidate: the maximal candidate
itself never lands in `remaining`, so `len(candidates) > 1` holds. -/
theorem remaining_ne_nil_length {blocks : List (Option (List (List Span)))}
    (hs : ∀ s ∈ allSpans blocks, s.size.IsPos)
    (hr : remainingCands blocks ≠ []) : 1 < (sortedCands blocks).length := by
  obtain ⟨r0, rrest, hr0⟩ := List.exists_cons_of_ne_nil hr
  have hr0s : r0 ∈ sortedCands blocks := by
    have : r0 ∈ remainingCands blocks := by
      rw [hr0]
      simp
    exact (List.mem_filter.mp this).1
  have hsne : sortedCands blocks ≠ [] := by
    intro h0
    rw [h0] at hr0s
    cases hr0s
  obtain ⟨top, rest, htop⟩ := List.exists_cons_of_ne_nil hsne
  have htoppos : top.size.IsPos :=
    cand_size_pos hs (mem_sortedCands.mp (by rw [htop]; simp))
  have htopnr : top ∉ remainingCands blocks := by
    intro hmem
    have hle := (List.mem_filter.mp hmem).2
    have hmax : maxSize blocks = top.size := by
      unfold maxSize
      rw [htop]
    rw [hmax] at hle
    exact Frac.not_le_mul99 htoppos (of_decide_eq_true hle)
  rw [htop]
  simp only [List.length_cons]
  rcases rest with - | ⟨b, brest⟩
  · exfalso
    rw [htop] at hr0s
    have : r0 = top := by simpa using hr0s
    rw [this] at hr0
    apply htopnr
    rw [hr0]
    simp
  · simp only [List.length_cons]
    omega

/-- C8: with positive font sizes and at least one candidate, the visual
title equals the secondary fallback title exactly when the primary title
is degenerate (shorter than 5 characters or all digits/white-space), the
set of candidates below the largest font group is non-empty, and the
secondary title has length > 5 and is not all-numeric; in every other
case the (possibly degenerate) primary title is kept.  The source's
extra guard `len(candidates) > 1` is implied by a non-empty `remaining`
(`remaining_ne_nil_length`), and a second font-size group exists exactly
when `remaining` is non-empty. -/
theorem C8_secondary_fallback (blocks : List (Option (List (List Span))))
    (hs : ∀ s ∈ allSpans blocks, s.size.IsPos)
    (hne : mkCandidates blocks ≠ []) :
    visual_title blocks =
      if degenerateTitle (primaryTitle blocks) = true ∧ remainingCands blocks ≠ [] ∧
          5 < (secondaryTitle blocks).length ∧
          matchNumSpace (secondaryTitle blocks) = false
      then secondaryTitle blocks
      else primaryTitle blocks := by
  have hie : (mkCandidates blocks).isEmpty = false := by
    rw [List.isEmpty_eq_false]
    exact hne
  unfold visual_title
  rw [if_neg (by simp [hie])]
  by_cases hdeg : degenerateTitle (primaryTitle blocks) = true
  · by_cases hrem : remainingCands blocks = []
    · by_cases hlen : 1 < (sortedCands blocks).length
      · rw [if_pos (by simp [hdeg, hlen]), hrem]
        dsimp only
        rw [if_neg (fun h => h.2.1 rfl)]
      · rw [if_neg (by simp [hlen])]
        rw [if_neg (fun h => h.2.1 hrem)]
    · have hlen := remaining_ne_nil_length hs hrem
      rw [if_pos (by simp [hdeg, hlen])]
      obtain ⟨r0, rrest, hr0⟩ := List.exists_cons_of_ne_nil hrem
      rw [hr0]
      dsimp only
      by_cases h5 : 5 < (secondaryTitle blocks).length
      · by_cases hns : matchNumSpace (secondaryTitle blocks) = true
        · rw [if_neg (by simp [hns])]
          rw [if_neg (fun h => by rw [h.2.2.2] at hns; cases hns)]
        · rw [if_pos (by simp [h5, hns])]
          rw [if_pos ⟨hdeg, List.cons_ne_nil r0 rrest, h5, by simpa using hns⟩]
      · rw [if_neg (by simp [h5])]
        rw [if_neg (fun h => h5 h.2.2.1)]
  · rw [if_neg (by simp [hdeg])]
    rw [if_neg (fun h => hdeg h.1)]

/-- Witness for C8: on the concrete two-group page the degenerate
primary title "Hi!!" is replaced by the second font group's
"A Real Title Here". -/
theorem C8_witness : visual_title blocks8 = ("A Real Title Here").toList := by
  have h := C8_secondary_fallback blocks8 (by decide) (by decide)
  rw [h]
  decide

/-- A page-1 span with font size 0 (a PDF may legally set `0 Tf`). -/
def spz : Span := ⟨("Hello friends").toList, ⟨0, 0⟩, ⟨0, 0⟩, ⟨10, 0⟩⟩

def blocksZ : List (Option (List (List Span))) := [some [[spz]]]

/-- A document with no metadata title whose only page-1 span has font
size 0. -/
def docC4z : FitzDoc := ⟨[], [("x").toList], blocksZ⟩

def fileC4z : PdfFile := ⟨Except.ok docC4z, Except.error (("x").toList), none⟩

/-- C4, counterexample: when the only candidate span reports font size
0, the filter `size > max_size * 0.99` (with `max_size = 0`) keeps
nothing, the clustered title is empty, and the sanity fallback does not
fire (`len(candidates) > 1` fails) — `get_strict_title` returns the
empty string, contradicting "never the empty string" for every input. -/
theorem C4_counterexample : get_strict_title fileC4z [] = [] := by decide
